import Mathlib

/-!
Verification of the meshcore-ha integration core against its specification.

Shallow embedding of the relevant parts of the source:
- `custom_components/meshcore/rate_limiter.py` (`TokenBucket`)
- `custom_components/meshcore/coordinator.py` (`get_all_contacts`,
  `_apply_backoff`, the login phase of `_update_repeater`, and the
  per-repeater scheduling loop of `_async_update_data`)
- `custom_components/meshcore/services.py` (`_parse_functional_command`)
- `tests/test_eviction.py` (`async_evict_discovered_contacts`, the
  standalone copy of the coordinator eviction logic, and the
  re-advertisement insertion discipline it tests)

Machine integers are modelled as `Nat`/`Int`; wall-clock timestamps as
`Nat` or `ℚ` (Python floats are modelled as exact rationals, which is
faithful for every quantity appearing in the claims).
-/

namespace MeshcoreHA

/-! ## Rate limiter (`rate_limiter.py`, class `TokenBucket`) -/

namespace RateLimiter

/-- Python's `int()` applied to a rational: truncation toward zero. -/
def pyTrunc (q : ℚ) : ℤ := if 0 ≤ q then ⌊q⌋ else -⌊-q⌋

/-- State of `TokenBucket`: `capacity`, `tokens`, `refill_rate`,
`last_refill` (`rate_limiter.py` lines 24-27). -/
structure TokenBucket where
  capacity : ℤ
  tokens : ℤ
  refill_rate : ℚ
  last_refill : ℚ
deriving DecidableEq

/-- `TokenBucket.__init__`: tokens start at capacity, `last_refill` is the
creation time (`time.time()` is passed in explicitly as `now`). -/
def TokenBucket.init (capacity : ℤ) (refill_rate_seconds : ℚ) (now : ℚ) : TokenBucket :=
  { capacity := capacity, tokens := capacity, refill_rate := refill_rate_seconds,
    last_refill := now }

/-- `TokenBucket._refill`: with `elapsed = now - last_refill` and
`tokens_to_add = int(elapsed / refill_rate)`, add the tokens capped at
capacity, and advance `last_refill` only when at least one token was added. -/
def TokenBucket.refill (b : TokenBucket) (now : ℚ) : TokenBucket :=
  if 0 < pyTrunc ((now - b.last_refill) / b.refill_rate) then
    { b with
      tokens := min b.capacity (b.tokens + pyTrunc ((now - b.last_refill) / b.refill_rate)),
      last_refill := now }
  else b

/-- `TokenBucket.get_tokens`: refill, then report the token count. -/
def TokenBucket.get_tokens (b : TokenBucket) (now : ℚ) : ℤ × TokenBucket :=
  ((b.refill now).tokens, b.refill now)

/-- `TokenBucket.try_consume`: refill, then deduct `n` tokens if at least
`n` are available, else leave the count unchanged. -/
def TokenBucket.try_consume (b : TokenBucket) (now : ℚ) (n : ℤ) : Bool × TokenBucket :=
  if n ≤ (b.refill now).tokens then
    (true, { b.refill now with tokens := (b.refill now).tokens - n })
  else (false, b.refill now)

/-- One externally observable bucket operation: a `try_consume(n)` call or a
`get_tokens()` call, each at a given wall-clock time. -/
inductive BucketOp where
  | consume (now : ℚ) (n : ℤ)
  | read (now : ℚ)
deriving DecidableEq

/-- State transition of a single bucket operation. -/
def applyOp (b : TokenBucket) (op : BucketOp) : TokenBucket :=
  match op with
  | .consume now n => (b.try_consume now n).snd
  | .read now => (b.get_tokens now).snd

/-- Run a sequence of bucket operations. -/
def runOps (b : TokenBucket) (ops : List BucketOp) : TokenBucket := ops.foldl applyOp b

/-- Validity of an operation sequence: every `try_consume` requests a
positive number of tokens. -/
def PosOps (ops : List BucketOp) : Prop :=
  ∀ t n, BucketOp.consume t n ∈ ops → 0 < n

end RateLimiter

/-! ## Backoff scheduler (`coordinator.py`, `_apply_backoff`; `const.py`) -/

namespace Backoff

/-- `const.py` line 92: `REPEATER_BACKOFF_BASE = 2`. -/
def REPEATER_BACKOFF_BASE : Nat := 2

/-- `base_interval = max(1, update_interval // (31 * 2))` (coordinator.py
line 504). -/
def baseInterval (update_interval : Nat) : Nat := max 1 (update_interval / (31 * 2))

/-- `backoff_delay = min(base_interval * (REPEATER_BACKOFF_BASE ** failure_count),
update_interval)` (coordinator.py line 506). -/
def backoffDelay (failure_count update_interval : Nat) : Nat :=
  min (baseInterval update_interval * REPEATER_BACKOFF_BASE ^ failure_count) update_interval

/-- Association-list update with Python-dict semantics: replace the value
in place if the key is present, else append at the end. -/
def setKey (l : List (String × Nat)) (k : String) (v : Nat) : List (String × Nat) :=
  match l with
  | [] => [(k, v)]
  | p :: rest => if p.fst = k then (k, v) :: rest else p :: setKey rest k v

/-- Association-list lookup (first occurrence). -/
def getKey (l : List (String × Nat)) (k : String) : Option Nat :=
  match l with
  | [] => none
  | p :: rest => if p.fst = k then some p.snd else getKey rest k

/-- The two per-node schedule maps written by `_apply_backoff`:
`_next_repeater_update_times` and `_next_telemetry_update_times`. -/
structure BackoffMaps where
  nextRepeater : List (String × Nat)
  nextTelemetry : List (String × Nat)
deriving DecidableEq

/-- `_apply_backoff(pubkey_prefix, failure_count, update_interval, update_type)`
(coordinator.py lines 489-518): store `now + backoff_delay` in the map selected
by `update_type`. -/
def applyBackoff (m : BackoffMaps) (pk : String) (failure_count update_interval now : Nat)
    (update_type : String) : BackoffMaps :=
  let next_update_time := now + backoffDelay failure_count update_interval
  if update_type = "telemetry" then
    { m with nextTelemetry := setKey m.nextTelemetry pk next_update_time }
  else
    { m with nextRepeater := setKey m.nextRepeater pk next_update_time }

/-- The schedule map that `_apply_backoff` writes for a given `update_type`. -/
def selectMap (m : BackoffMaps) (update_type : String) : List (String × Nat) :=
  if update_type = "telemetry" then m.nextTelemetry else m.nextRepeater

end Backoff

/-! ## Discovered-contacts eviction (`tests/test_eviction.py`,
`async_evict_discovered_contacts` — the standalone copy of the coordinator
eviction logic, which is the source cited for these claims) -/

namespace Eviction

/-- The coordinator state touched by `async_evict_discovered_contacts`:
the insertion-ordered discovered-contacts dict (`public_key` → abstract
contact payload), the `tracked_diagnostic_binary_contacts` set, the entity
registry restricted to meshcore binary_sensor entities as
(`unique_id`, `entity_id`) pairs, the log of `_store.async_save` calls and
the count of `async_set_updated_data` calls. -/
structure Coord where
  discovered : List (String × Nat)
  trackedDiag : List String
  registry : List (String × String)
  removedEntities : List String
  saves : List (List (String × Nat))
  updates : Nat
deriving DecidableEq

/-- Body of the per-key eviction loop (test_eviction.py lines 23-32):
`del coord._discovered_contacts[public_key]`, discard the 12-character
prefix from the tracked set, and `async_remove` the first binary_sensor
registry entry whose `unique_id` equals the prefix. -/
def evictOne (st : Coord) (public_key : String) : Coord :=
  let base := { st with
    discovered := st.discovered.filter (fun kv => kv.fst ≠ public_key),
    trackedDiag := st.trackedDiag.filter (fun s => s ≠ public_key.take 12) }
  match st.registry.find? (fun e => e.fst = public_key.take 12) with
  | some e =>
    { base with
      registry := st.registry.eraseP (fun x => x.fst = public_key.take 12),
      removedEntities := st.removedEntities ++ [e.snd] }
  | none => base

/-- `async_evict_discovered_contacts(coord, max_contacts)`
(test_eviction.py lines 10-40): no-op returning `False` when at or under
the cap; otherwise evict the oldest `size - max_contacts` keys (the front
of the insertion-ordered dict), persist via `_store.async_save`, publish
via `async_set_updated_data`, and return `True`. -/
def async_evict_discovered_contacts (st : Coord) (max_contacts : Nat) : Bool × Coord :=
  if st.discovered.length ≤ max_contacts then (false, st)
  else
    let keys_to_evict :=
      (st.discovered.map Prod.fst).take (st.discovered.length - max_contacts)
    let st1 := keys_to_evict.foldl evictOne st
    let st2 := { st1 with saves := st1.saves ++ [st1.discovered] }
    (true, { st2 with updates := st2.updates + 1 })

/-- Insertion of a (re-)discovered contact into the ordered dict, as
exercised by `test_readvertisement_refreshes_insertion_order`
(test_eviction.py lines 161-173): delete the key if present, then insert
at the back, so the key moves to the most-recently-inserted position. -/
def reinsertContact (d : List (String × Nat)) (public_key : String) (v : Nat) :
    List (String × Nat) :=
  (d.filter (fun kv => kv.fst ≠ public_key)) ++ [(public_key, v)]

end Eviction

/-! ## Contact registry merge (`coordinator.py`, `get_all_contacts`,
lines 186-220) -/

namespace Registry

/-- A contact record as it enters `get_all_contacts`: a dict whose
`public_key` and `lastmod` entries may be absent (`dict.get`), with the
remaining dict fields abstracted into an opaque `payload`. -/
structure Contact where
  public_key : Option String
  lastmod : Option Int
  payload : Nat
deriving DecidableEq

/-- A merged contact as returned by `get_all_contacts`: the copied record
plus the stamped `pubkey_prefix` (modelled as the field `prefix12`) and
`added_to_node`. -/
structure Merged where
  public_key : String
  lastmod : Option Int
  payload : Nat
  prefix12 : String
  added_to_node : Bool
deriving DecidableEq

/-- The key used by `get_all_contacts`: `contact.get("public_key")`, with a
missing or empty (falsy) key causing the record to be skipped. -/
def truthyKey (c : Contact) : Option String :=
  match c.public_key with
  | some s => if s = "" then none else some s
  | none => none

/-- `added_pubkeys = set(c.get("public_key") for c in self._contacts if
c.get("public_key"))` (coordinator.py line 195). -/
def addedPubkeys (added : List Contact) : List String := added.filterMap truthyKey

/-- `contact.get("lastmod", 0)` (coordinator.py lines 212-213). -/
def lastmodD (m : Option Int) : Int := m.getD 0

/-- `contact_copy`: the record copied and stamped with
`pubkey_prefix = public_key[:12]` and
`added_to_node = public_key in added_pubkeys` (coordinator.py lines 205-207). -/
def stamp (apks : List String) (pk : String) (c : Contact) : Merged :=
  { public_key := pk, lastmod := c.lastmod, payload := c.payload,
    prefix12 := pk.take 12, added_to_node := decide (pk ∈ apks) }

/-- Insertion-ordered dict lookup (first matching key). -/
def alookup (d : List (String × Merged)) (pk : String) : Option Merged :=
  match d with
  | [] => none
  | kv :: rest => if kv.fst = pk then some kv.snd else alookup rest pk

/-- The `contacts_dict` update for one stamped record (coordinator.py lines
209-218): if the key is present, replace the stored record only when the new
`lastmod` is strictly greater (keeping the dict position, as Python dict
assignment does); otherwise insert at the back. -/
def insertMerge (d : List (String × Merged)) (pk : String) (cc : Merged) :
    List (String × Merged) :=
  match alookup d pk with
  | some existing =>
    if lastmodD cc.lastmod > lastmodD existing.lastmod then
      d.map (fun kv => if kv.fst = pk then (pk, cc) else kv)
    else d
  | none => d ++ [(pk, cc)]

/-- One iteration of the `for contact in all_contacts` loop over the
`contacts_dict` (coordinator.py lines 200-218): skip falsy keys, stamp the
copy, and apply the freshness-aware dict update. -/
def mergeStep (apks : List String) (d : List (String × Merged)) (c : Contact) :
    List (String × Merged) :=
  match truthyKey c with
  | none => d
  | some pk => insertMerge d pk (stamp apks pk c)

/-- `get_all_contacts()`: fold `all_contacts = list(discovered.values()) +
added` into `contacts_dict` and return `list(contacts_dict.values())`. -/
def get_all_contacts (discovered added : List Contact) : List Merged :=
  ((discovered ++ added).foldl (mergeStep (addedPubkeys added)) []).map Prod.snd

/-- The lastmod-freshness combination applied to successive records sharing
one key: first record wins unless a later one has strictly greater
`lastmod`. -/
def combineMerge (o : Option Merged) (cc : Merged) : Option Merged :=
  match o with
  | none => some cc
  | some e => some (if lastmodD cc.lastmod > lastmodD e.lastmod then cc else e)

/-- Invariant of every entry of `contacts_dict`: the stored record's
`public_key` is the dict key, `pubkey_prefix` is its first 12 characters,
and `added_to_node` holds exactly when the key is in `added_pubkeys`. -/
def GoodEntry (apks : List String) (kv : String × Merged) : Prop :=
  kv.snd.public_key = kv.fst ∧ kv.snd.prefix12 = kv.fst.take 12 ∧
    kv.snd.added_to_node = decide (kv.fst ∈ apks)

end Registry

/-! ## Per-repeater scheduling loop (`coordinator.py`, `_async_update_data`,
lines 741-791) -/

namespace Sched

/-- Scheduler state of the per-repeater loop: `_active_repeater_tasks` as an
association list pubkey_prefix → task id, `_next_repeater_update_times`,
the set of task ids whose coroutine has finished (`task.done()`), the next
fresh task id, and the log of every spawned run (pubkey_prefix, task id). -/
structure SchedState where
  active : List (String × Nat)
  nextUpdate : List (String × Nat)
  doneIds : List Nat
  fresh : Nat
  log : List (String × Nat)
deriving DecidableEq

/-- The spawn check (coordinator.py lines 781-791): when the node's
next-update time (default 0) has elapsed, create a task and store its
handle. The key is absent from `active` at this point, so the dict
assignment appends. -/
def tickSpawn (now : Nat) (st : SchedState) (pk : String) : SchedState :=
  if (Backoff.getKey st.nextUpdate pk).getD 0 ≤ now then
    { st with
      active := st.active ++ [(pk, st.fresh)],
      fresh := st.fresh + 1,
      log := st.log ++ [(pk, st.fresh)] }
  else st

/-- One iteration of the per-repeater loop (coordinator.py lines 741-791)
for a node `(pubkey_prefix, eligible)`. `eligible` abstracts the
config-completeness, disabled and auto-disable guards, none of which touch
the task-handle check. A stored handle that is done is popped; a stored
handle that is not done skips the node; otherwise the spawn check runs. -/
def tickNode (now : Nat) (st : SchedState) (r : String × Bool) : SchedState :=
  if !r.snd then st
  else
    match Backoff.getKey st.active r.fst with
    | some tid =>
      if tid ∈ st.doneIds then
        tickSpawn now
          { st with active := st.active.filter (fun p => p.fst ≠ r.fst) } r.fst
      else st
    | none => tickSpawn now st r.fst

/-- One `_async_update_data` pass over the tracked repeaters. -/
def tick (now : Nat) (reps : List (String × Bool)) (st : SchedState) : SchedState :=
  reps.foldl (tickNode now) st

/-- An execution step: a scheduler tick, or the environment completing a set
of running tasks. A completing task's `finally` block pops its own handle
and `task.done()` then reports true, and the task body may write
`_next_repeater_update_times` entries (`sched`). Ids not yet allocated are
ignored: a task cannot complete before it was spawned. -/
inductive Step where
  | tick (now : Nat) (reps : List (String × Bool))
  | complete (ids : List Nat) (sched : List (String × Nat))
deriving DecidableEq

def applyStep (st : SchedState) (s : Step) : SchedState :=
  match s with
  | .tick now reps => tick now reps st
  | .complete ids sched =>
    let d := st.doneIds ++ ids.filter (fun i => i < st.fresh)
    { st with
      doneIds := d,
      active := st.active.filter (fun p => p.snd ∉ d),
      nextUpdate := sched.foldl (fun m kv => Backoff.setKey m kv.fst kv.snd) st.nextUpdate }

/-- Coordinator start: no active tasks, no schedule, nothing spawned. -/
def initState : SchedState := ⟨[], [], [], 0, []⟩

/-- Run an arbitrary interleaving of ticks and completions. -/
def run (steps : List Step) : SchedState := steps.foldl applyStep initState

/-- The scheduling invariant: spawned ids are below the fresh counter,
`active` has at most one entry per node, every active handle was spawned,
and every spawned, not-yet-done run is still recorded in `active`. -/
def Inv (st : SchedState) : Prop :=
  (∀ p ∈ st.log, p.snd < st.fresh) ∧
  (st.active.map Prod.fst).Nodup ∧
  (∀ p ∈ st.active, p ∈ st.log) ∧
  (∀ p ∈ st.log, p.snd ∉ st.doneIds → p ∈ st.active)

end Sched

/-! ## Repeater login phase (`coordinator.py`, `_update_repeater`,
lines 374-418) -/

namespace Login

/-- Outcome of the awaited `send_login` command: a `LOGIN_SUCCESS` event, an
error/timeout result, or a raised exception. -/
inductive LoginOutcome where
  | success
  | failure
  | exc
deriving DecidableEq

/-- `const.py` line 69. -/
def MAX_REPEATER_FAILURES_BEFORE_LOGIN : Nat := 5

/-- `login_cooldown = 3600` (coordinator.py line 381). -/
def login_cooldown : Int := 3600

/-- Per-repeater coordinator state touched by the login phase:
`_repeater_consecutive_failures[pk]` (default 0), `_repeater_login_times[pk]`
(default 0), the reliability counters, and
`_next_repeater_update_times[pk]`. -/
structure RepState where
  failures : Nat
  lastLoginTime : Nat
  statSuccesses : Nat
  statFailures : Nat
  nextUpdate : Nat
deriving DecidableEq

/-- Result of the login phase: the updated state, whether `send_login` was
issued, and whether the run aborted (rate-limited). -/
structure LoginResult where
  st : RepState
  loginSent : Bool
  aborted : Bool
deriving DecidableEq

/-- The login phase of `_update_repeater` (coordinator.py lines 374-418):
attempt login only when `failure_count >= MAX_REPEATER_FAILURES_BEFORE_LOGIN`
and the 1-hour cooldown since the last attempt has elapsed; first consume a
rate-limiter token, aborting the run with an incremented failure stat and a
backoff otherwise; then, on `LOGIN_SUCCESS`, reset the consecutive failure
count to 0 and record the login time; on an error result or an exception,
record the login time only (enforcing the cooldown) and leave the
consecutive failure count unchanged. -/
def loginPhase (st : RepState) (now : Nat) (tokenAvailable : Bool)
    (outcome : LoginOutcome) (update_interval : Nat) : LoginResult :=
  if MAX_REPEATER_FAILURES_BEFORE_LOGIN ≤ st.failures ∧
      login_cooldown ≤ (now : Int) - (st.lastLoginTime : Int) then
    if !tokenAvailable then
      { st :=
          { st with
            statFailures := st.statFailures + 1,
            nextUpdate := now + Backoff.backoffDelay (st.failures + 1) update_interval },
        loginSent := false, aborted := true }
    else
      match outcome with
      | .success =>
        { st :=
            { st with
              statSuccesses := st.statSuccesses + 1,
              lastLoginTime := now,
              failures := 0 },
          loginSent := true, aborted := false }
      | .failure =>
        { st := { st with statFailures := st.statFailures + 1, lastLoginTime := now },
          loginSent := true, aborted := false }
      | .exc =>
        { st := { st with statFailures := st.statFailures + 1, lastLoginTime := now },
          loginSent := true, aborted := false }
  else { st := st, loginSent := false, aborted := false }

end Login

/-! ## Functional command parser (`services.py`, `_parse_functional_command`,
lines 77-93)

The source matches `^(\w+)\s*\((.*)\)\s*$` against the stripped command,
parses `_({body})` with `ast.parse`, and converts every argument with
`ast.literal_eval`, returning `None` on any failure. The Python expression
grammar is embedded for the fragment reachable through small
service-command strings: identifiers, decimal integers, quoted strings
without escape sequences, `True`/`False`/`None`, unary minus, binary
`+`/`-`, attribute access, calls with positional and `name=value` keyword
arguments, and parenthesised expressions. `ast.literal_eval` accepts
exactly the literal constants of this fragment (plus negated numbers) and
raises on names, calls, attributes and on `+`/`-` whose right operand is
not a complex literal — complex literals are outside the fragment, so
every binary `+`/`-` is rejected, matching CPython. -/

namespace Services

/-- ASCII `\w` as used by the command-name regex. -/
def isWordChar (c : Char) : Bool := c.isAlphanum || c = '_'

/-- `str.strip()` on a character list. -/
def trimChars (l : List Char) : List Char :=
  ((l.dropWhile Char.isWhitespace).reverse.dropWhile Char.isWhitespace).reverse

/-- `^(\w+)\s*\((.*)\)\s*$` with `re.DOTALL` applied to
`command_str.strip()`, returning the command name and the stripped body
(`m.group(2).strip()`). The greedy `(.*)` followed by `\)\s*$` on a
stripped string makes the body everything between the first `(` and the
final character, which must be `)`. -/
def regexSplit (command_str : String) : Option (String × String) :=
  let t := trimChars command_str.data
  let nameChars := t.takeWhile isWordChar
  let rest := (t.dropWhile isWordChar).dropWhile Char.isWhitespace
  if nameChars.isEmpty then none
  else
    match rest with
    | [] => none
    | c :: inner =>
      if c = '(' then
        match inner.reverse with
        | [] => none
        | last :: revBody =>
          if last = ')' then
            some (String.mk nameChars, String.mk (trimChars revBody.reverse))
          else none
      else none

/-- Tokens of the embedded Python expression fragment. -/
inductive PyTok where
  | ident (s : String)
  | intLit (n : Nat)
  | strLit (s : String)
  | lparen
  | rparen
  | comma
  | dot
  | plus
  | minus
  | eqSign
deriving DecidableEq

/-- Decimal digits to a natural number. -/
def digitsToNat (ds : List Char) : Nat :=
  ds.foldl (fun n c => n * 10 + (c.toNat - 48)) 0

/-- Scan a string-literal body up to the closing quote (no escape
sequences in the fragment); returns the literal characters and the rest. -/
def scanStrAux (q : Char) : List Char → Option (List Char × List Char)
  | [] => none
  | c :: cs =>
    if c = q then some ([], cs)
    else
      match scanStrAux q cs with
      | some (s, rest) => some (c :: s, rest)
      | none => none

/-- Fuel-indexed tokenizer for the fragment. -/
def tokenizeAux : Nat → List Char → Option (List PyTok)
  | _, [] => some []
  | 0, _ :: _ => none
  | fuel + 1, c :: cs =>
    if c.isWhitespace then tokenizeAux fuel cs
    else if c.isDigit then
      match tokenizeAux fuel ((c :: cs).dropWhile Char.isDigit) with
      | some tks => some (.intLit (digitsToNat ((c :: cs).takeWhile Char.isDigit)) :: tks)
      | none => none
    else if isWordChar c then
      match tokenizeAux fuel ((c :: cs).dropWhile isWordChar) with
      | some tks => some (.ident (String.mk ((c :: cs).takeWhile isWordChar)) :: tks)
      | none => none
    else if c = '(' then (tokenizeAux fuel cs).map (fun tks => PyTok.lparen :: tks)
    else if c = ')' then (tokenizeAux fuel cs).map (fun tks => PyTok.rparen :: tks)
    else if c = ',' then (tokenizeAux fuel cs).map (fun tks => PyTok.comma :: tks)
    else if c = '.' then (tokenizeAux fuel cs).map (fun tks => PyTok.dot :: tks)
    else if c = '+' then (tokenizeAux fuel cs).map (fun tks => PyTok.plus :: tks)
    else if c = '-' then (tokenizeAux fuel cs).map (fun tks => PyTok.minus :: tks)
    else if c = '=' then (tokenizeAux fuel cs).map (fun tks => PyTok.eqSign :: tks)
    else if c = '"' ∨ c = Char.ofNat 39 then
      match scanStrAux c cs with
      | some (sChars, rest) =>
        match tokenizeAux fuel rest with
        | some tks => some (.strLit (String.mk sChars) :: tks)
        | none => none
      | none => none
    else none

def tokenize (s : String) : Option (List PyTok) :=
  tokenizeAux (s.data.length + 1) s.data

/-- Python expressions of the fragment, as produced by `ast.parse`. -/
inductive PyExpr where
  | intConst (n : Nat)
  | strConst (s : String)
  | boolConst (b : Bool)
  | noneConst
  | name (s : String)
  | neg (e : PyExpr)
  | binAdd (a b : PyExpr)
  | binSub (a b : PyExpr)
  | call (f : PyExpr) (args : List PyExpr) (kwargs : List (String × PyExpr))
  | attr (e : PyExpr) (fld : String)

/-- Values producible by `ast.literal_eval` within the fragment. -/
inductive PyVal where
  | int (n : Int)
  | str (s : String)
  | bool (b : Bool)
  | none
deriving DecidableEq

/-- `ast.literal_eval` on the fragment: constants evaluate; unary minus of
an integer constant evaluates; names, calls, attribute access and binary
`+`/`-` (whose right operand is never a complex literal here) raise, i.e.
return `none`. The expression is never executed. -/
def literal_eval : PyExpr → Option PyVal
  | .intConst n => some (.int n)
  | .strConst s => some (.str s)
  | .boolConst b => some (.bool b)
  | .noneConst => some .none
  | .neg e =>
    match e with
    | .intConst n => some (.int (-(n : Int)))
    | _ => Option.none
  | _ => Option.none

/-- Parser modes: expression levels and the argument-list productions of a
call. -/
inductive PMode where
  | expr
  | sumRest (acc : PyExpr)
  | unary
  | trailed
  | trailers (e : PyExpr)
  | atom
  | argList
  | argItems
  | argItem

/-- Parser results. -/
inductive PRes where
  | expr (e : PyExpr) (rest : List PyTok)
  | args (args : List PyExpr) (kwargs : List (String × PyExpr)) (rest : List PyTok)
  | item (k : Option String) (e : PyExpr) (rest : List PyTok)

/-- Combine the first parsed argument item with the remaining ones; a
positional argument after a keyword argument is a Python syntax error. -/
def finishItem (k : Option String) (e : PyExpr) (args : List PyExpr)
    (kwargs : List (String × PyExpr)) (rest : List PyTok) : Option PRes :=
  match k with
  | none => some (.args (e :: args) kwargs rest)
  | some key => if args.isEmpty then some (.args [] ((key, e) :: kwargs) rest) else none

/-- Fuel-indexed recursive-descent parser for the fragment, with Python's
precedence: unary minus binds tighter than binary `+`/`-`; calls and
attribute access are postfix trailers; an argument list ends at the
matching `)` and allows a trailing comma. -/
def parseGo : Nat → PMode → List PyTok → Option PRes
  | 0, _, _ => none
  | fuel + 1, mode, ts =>
    match mode with
    | .expr =>
      match parseGo fuel .unary ts with
      | some (.expr e rest) => parseGo fuel (.sumRest e) rest
      | _ => none
    | .sumRest acc =>
      match ts with
      | .plus :: rest =>
        match parseGo fuel .unary rest with
        | some (.expr e rest2) => parseGo fuel (.sumRest (.binAdd acc e)) rest2
        | _ => none
      | .minus :: rest =>
        match parseGo fuel .unary rest with
        | some (.expr e rest2) => parseGo fuel (.sumRest (.binSub acc e)) rest2
        | _ => none
      | _ => some (.expr acc ts)
    | .unary =>
      match ts with
      | .minus :: rest =>
        match parseGo fuel .unary rest with
        | some (.expr e rest2) => some (.expr (.neg e) rest2)
        | _ => none
      | _ => parseGo fuel .trailed ts
    | .trailed =>
      match parseGo fuel .atom ts with
      | some (.expr e rest) => parseGo fuel (.trailers e) rest
      | _ => none
    | .trailers e =>
      match ts with
      | .dot :: .ident f :: rest => parseGo fuel (.trailers (.attr e f)) rest
      | .lparen :: rest =>
        match parseGo fuel .argList rest with
        | some (.args args kwargs rest2) =>
          parseGo fuel (.trailers (.call e args kwargs)) rest2
        | _ => none
      | _ => some (.expr e ts)
    | .atom =>
      match ts with
      | .intLit n :: rest => some (.expr (.intConst n) rest)
      | .strLit s :: rest => some (.expr (.strConst s) rest)
      | .ident s :: rest =>
        if s = "True" then some (.expr (.boolConst true) rest)
        else if s = "False" then some (.expr (.boolConst false) rest)
        else if s = "None" then some (.expr .noneConst rest)
        else some (.expr (.name s) rest)
      | .lparen :: rest =>
        match parseGo fuel .expr rest with
        | some (.expr e (.rparen :: rest2)) => some (.expr e rest2)
        | _ => none
      | _ => none
    | .argList =>
      match ts with
      | .rparen :: rest => some (.args [] [] rest)
      | _ => parseGo fuel .argItems ts
    | .argItems =>
      match parseGo fuel .argItem ts with
      | some (.item k e rest) =>
        match rest with
        | .comma :: .rparen :: rest2 => finishItem k e [] [] rest2
        | .comma :: rest2 =>
          match parseGo fuel .argItems rest2 with
          | some (.args args kwargs rest3) => finishItem k e args kwargs rest3
          | _ => none
        | .rparen :: rest2 => finishItem k e [] [] rest2
        | _ => none
      | _ => none
    | .argItem =>
      match ts with
      | .ident k :: .eqSign :: rest =>
        match parseGo fuel .expr rest with
        | some (.expr e rest2) => some (.item (some k) e rest2)
        | _ => none
      | _ =>
        match parseGo fuel .expr ts with
        | some (.expr e rest) => some (.item none e rest)
        | _ => none

/-- Fuel bound: descending one grammar level or consuming one token each
costs one unit; eight per token is ample. -/
def argFuel (toks : List PyTok) : Nat := 8 * toks.length + 8

/-- `ast.parse(f"_({body})", mode="eval")` followed by extraction of the
call's `args`/`keywords`: parse the body as the argument list of the
synthetic call, requiring all input to be consumed. -/
def parseArgsStr (body : String) : Option (List PyExpr × List (String × PyExpr)) :=
  match tokenize body with
  | some toks =>
    match parseGo (argFuel toks) .argList (toks ++ [PyTok.rparen]) with
    | some (.args args kwargs []) => some (args, kwargs)
    | _ => none
  | none => none

/-- Evaluate a conversion over a list, failing as soon as one element
fails — the behaviour of the source's comprehensions over
`ast.literal_eval`, whose first raised exception aborts the whole parse. -/
def mapOpt {α β : Type} (f : α → Option β) : List α → Option (List β)
  | [] => some []
  | a :: rest =>
    match f a with
    | some b =>
      match mapOpt f rest with
      | some bs => some (b :: bs)
      | none => none
    | none => none

/-- The argument-conversion and result-assembly part of
`_parse_functional_command` given the regex groups: empty body short-cut,
then `ast.literal_eval` over every positional and keyword argument with any
failure (or parse failure) yielding `None`. -/
def withBody (cmd_name body : String) :
    Option (String × List PyVal × List (String × PyVal)) :=
  if body = "" then some (cmd_name, [], [])
  else
    (parseArgsStr body).bind (fun p =>
      match mapOpt literal_eval p.fst,
        mapOpt (fun kv => (literal_eval kv.snd).map (fun v => (kv.fst, v))) p.snd with
      | some pos_args, some kw_args => some (cmd_name, pos_args, kw_args)
      | _, _ => none)

/-- `_parse_functional_command(command_str)` (services.py lines 77-93). -/
def parseFunctionalCommand (command_str : String) :
    Option (String × List PyVal × List (String × PyVal)) :=
  (regexSplit command_str).bind (fun p => withBody p.fst p.snd)

end Services

end MeshcoreHA

namespace MeshcoreHA

/-! ## Theorems: backoff -/

namespace Backoff

theorem getKey_setKey_self (l : List (String × Nat)) (k : String) (v : Nat) :
    getKey (setKey l k v) k = some v := by
  induction l with
  | nil => simp [setKey, getKey]
  | cons p rest ih =>
    by_cases h : p.fst = k
    · simp [setKey, getKey, h]
    · simp [setKey, getKey, h, ih]

theorem backoffDelay_le (fc iv : Nat) : backoffDelay fc iv ≤ iv :=
  Nat.min_le_right _ _

theorem backoffDelay_mono (iv : Nat) {f1 f2 : Nat} (h : f1 ≤ f2) :
    backoffDelay f1 iv ≤ backoffDelay f2 iv := by
  unfold backoffDelay
  exact min_le_min (Nat.mul_le_mul_left _ (Nat.pow_le_pow_right (by decide) h)) le_rfl

/-- C3: the backoff delay applied after a failed node update equals
`min(max(1, update_interval // 62) * 2^failure_count, update_interval)`; it never
exceeds the configured interval, it is non-decreasing in `failure_count`, and
the node's next update time is set to `now + delay` in the schedule map selected
by the update type. -/
theorem c3_backoff_bounded_monotone (m : BackoffMaps) (pk : String)
    (fc iv now : Nat) (ty : String) :
    backoffDelay fc iv = min (max 1 (iv / 62) * 2 ^ fc) iv ∧
    backoffDelay fc iv ≤ iv ∧
    (∀ f1 f2 : Nat, f1 ≤ f2 → backoffDelay f1 iv ≤ backoffDelay f2 iv) ∧
    getKey (selectMap (applyBackoff m pk fc iv now ty) ty) pk =
      some (now + backoffDelay fc iv) := by
  refine ⟨rfl, backoffDelay_le fc iv, fun f1 f2 h => backoffDelay_mono iv h, ?_⟩
  unfold applyBackoff selectMap
  by_cases h : ty = "telemetry" <;> simp [h, getKey_setKey_self]

/-- Witness for C3 at concrete inputs, discharging the monotonicity
hypothesis at `failure_count` 3 ≤ 4. -/
theorem c3_backoff_witness :
    backoffDelay 3 7200 ≤ backoffDelay 4 7200 ∧
    getKey (selectMap (applyBackoff ⟨[], []⟩ "abc123abc123" 3 7200 1000 "repeater")
        "repeater") "abc123abc123" = some (1000 + backoffDelay 3 7200) := by
  refine ⟨(c3_backoff_bounded_monotone ⟨[], []⟩ "abc123abc123" 3 7200 1000
    "repeater").2.2.1 3 4 (by decide), (c3_backoff_bounded_monotone ⟨[], []⟩
    "abc123abc123" 3 7200 1000 "repeater").2.2.2⟩

end Backoff

/-! ## Theorems: rate limiter -/

namespace RateLimiter

theorem refill_capacity (b : TokenBucket) (now : ℚ) :
    (b.refill now).capacity = b.capacity := by
  unfold TokenBucket.refill
  split <;> rfl

theorem refill_bounds (b : TokenBucket) (now : ℚ) (h0 : 0 ≤ b.tokens)
    (h1 : b.tokens ≤ b.capacity) :
    0 ≤ (b.refill now).tokens ∧ (b.refill now).tokens ≤ b.capacity := by
  unfold TokenBucket.refill
  split
  · rename_i h
    exact ⟨le_min (le_trans h0 h1) (by linarith), min_le_left _ _⟩
  · exact ⟨h0, h1⟩

theorem applyOp_capacity (b : TokenBucket) (op : BucketOp) :
    (applyOp b op).capacity = b.capacity := by
  cases op with
  | consume now n =>
    simp only [applyOp, TokenBucket.try_consume]
    split <;> simp [refill_capacity]
  | read now =>
    simp [applyOp, TokenBucket.get_tokens, refill_capacity]

theorem applyOp_bounds (b : TokenBucket) (op : BucketOp) (h0 : 0 ≤ b.tokens)
    (h1 : b.tokens ≤ b.capacity) (hn : ∀ t n, op = BucketOp.consume t n → 0 < n) :
    0 ≤ (applyOp b op).tokens ∧ (applyOp b op).tokens ≤ b.capacity := by
  cases op with
  | consume now n =>
    have hb := refill_bounds b now h0 h1
    have hpos : 0 < n := hn now n rfl
    simp only [applyOp, TokenBucket.try_consume]
    split
    · rename_i h
      constructor
      · simpa using h
      · have := hb.2
        simp only
        linarith
    · exact hb
  | read now =>
    simpa [applyOp, TokenBucket.get_tokens] using refill_bounds b now h0 h1

theorem runOps_bounds (ops : List BucketOp) (b : TokenBucket) (h0 : 0 ≤ b.tokens)
    (h1 : b.tokens ≤ b.capacity) (hn : PosOps ops) :
    (runOps b ops).capacity = b.capacity ∧
    0 ≤ (runOps b ops).tokens ∧ (runOps b ops).tokens ≤ b.capacity := by
  induction ops generalizing b with
  | nil => exact ⟨rfl, h0, h1⟩
  | cons op rest ih =>
    have hop : ∀ t n, op = BucketOp.consume t n → 0 < n := by
      intro t n h
      exact hn t n (by simp [h])
    have hb := applyOp_bounds b op h0 h1 hop
    have hc := applyOp_capacity b op
    have hrest : PosOps rest := by
      intro t n h
      exact hn t n (by simp [h])
    have := ih (applyOp b op) hb.1 (hc ▸ hb.2) hrest
    exact ⟨by rw [runOps] at this ⊢; simp only [List.foldl_cons]; rw [this.1, hc],
      this.2.1, by
        have h2 := this.2.2
        rw [hc] at h2
        rw [runOps] at h2 ⊢
        simpa using h2⟩

/-- C10: across any sequence of `try_consume`/`get_tokens` calls with positive
requests, the token count stays within `[0, capacity]`; and `try_consume`
returns `True` deducting exactly `n` when at least `n` tokens are available
after refill, else returns `False` leaving the count unchanged. -/
theorem c10_token_bucket_invariant :
    (∀ (b : TokenBucket) (ops : List BucketOp),
      0 ≤ b.tokens → b.tokens ≤ b.capacity → PosOps ops →
      (runOps b ops).capacity = b.capacity ∧
      0 ≤ (runOps b ops).tokens ∧ (runOps b ops).tokens ≤ b.capacity) ∧
    (∀ (b : TokenBucket) (now : ℚ) (n : ℤ),
      (n ≤ (b.refill now).tokens →
        b.try_consume now n =
          (true, { b.refill now with tokens := (b.refill now).tokens - n })) ∧
      ((b.refill now).tokens < n → b.try_consume now n = (false, b.refill now))) := by
  constructor
  · intro b ops h0 h1 hn
    exact runOps_bounds ops b h0 h1 hn
  · intro b now n
    constructor
    · intro h
      simp [TokenBucket.try_consume, h]
    · intro h
      simp [TokenBucket.try_consume, not_le.mpr h]

theorem refill_zero_elapsed (cap tok : ℤ) :
    (⟨cap, tok, 120, 0⟩ : TokenBucket).refill 0 = ⟨cap, tok, 120, 0⟩ := by
  unfold TokenBucket.refill pyTrunc
  norm_num

/-- Witness for C10: a concrete bucket and operation sequence. -/
theorem c10_token_bucket_witness :
    (runOps ⟨20, 20, 120, 0⟩ [BucketOp.consume 0 20, BucketOp.read 130]).capacity = 20 ∧
    0 ≤ (runOps ⟨20, 20, 120, 0⟩ [BucketOp.consume 0 20, BucketOp.read 130]).tokens ∧
    ((⟨20, 5, 120, 0⟩ : TokenBucket).try_consume 0 3).fst = true := by
  have h := (c10_token_bucket_invariant.1 ⟨20, 20, 120, 0⟩
    [BucketOp.consume 0 20, BucketOp.read 130] (by norm_num) (by norm_num)
    (by intro t n h; simp at h; rw [h.2]; norm_num))
  have h2 := (c10_token_bucket_invariant.2 ⟨20, 5, 120, 0⟩ 0 3).1
    (by rw [refill_zero_elapsed]; norm_num)
  exact ⟨h.1, h.2.1, by rw [h2]⟩

theorem tc_all_at_zero :
    (TokenBucket.init 20 120 0).try_consume 0 20 = (true, ⟨20, 0, 120, 0⟩) := by
  unfold TokenBucket.init TokenBucket.try_consume TokenBucket.refill pyTrunc
  norm_num

theorem gt_at_130 :
    (⟨20, 0, 120, 0⟩ : TokenBucket).get_tokens 130 = (1, ⟨20, 1, 120, 130⟩) := by
  unfold TokenBucket.get_tokens TokenBucket.refill pyTrunc
  norm_num [min_def]

theorem gt_at_240_after_130 :
    (⟨20, 1, 120, 130⟩ : TokenBucket).get_tokens 240 = (1, ⟨20, 1, 120, 130⟩) := by
  unfold TokenBucket.get_tokens TokenBucket.refill pyTrunc
  norm_num

theorem gt_at_240_direct :
    (⟨20, 0, 120, 0⟩ : TokenBucket).get_tokens 240 = (2, ⟨20, 2, 120, 240⟩) := by
  unfold TokenBucket.get_tokens TokenBucket.refill pyTrunc
  norm_num [min_def]

/-- C2 counterexample: capacity 20, refill rate 120s; consume all 20 tokens at
time 0, then call `get_tokens()` at time 130 (which adds one token and resets
`last_refill` to 130, discarding the 10s fractional remainder); `get_tokens()`
at time 240 — i.e. 240 seconds after consuming all tokens, with one other call
in between — returns 1, not 2. -/
theorem c2_refill_counterexample :
    (((TokenBucket.init 20 120 0).try_consume 0 20).fst = true) ∧
    ((((TokenBucket.init 20 120 0).try_consume 0 20).snd.get_tokens 130).fst = 1) ∧
    (((((TokenBucket.init 20 120 0).try_consume 0 20).snd.get_tokens 130).snd.get_tokens
        240).fst = 1) ∧
    ¬(((((TokenBucket.init 20 120 0).try_consume 0 20).snd.get_tokens 130).snd.get_tokens
        240).fst = 2) := by
  simp [tc_all_at_zero, gt_at_130, gt_at_240_after_130]

theorem refill_fixed_of_lt (t : ℚ) (h0 : 0 ≤ t) (h1 : t < 120) :
    (⟨20, 0, 120, 0⟩ : TokenBucket).refill t = ⟨20, 0, 120, 0⟩ := by
  have hq0 : (0 : ℚ) ≤ (t - 0) / 120 := by
    rw [sub_zero]
    exact div_nonneg h0 (by norm_num)
  have hq1 : (t - 0) / 120 < 1 := by
    rw [sub_zero]
    rw [div_lt_one (by norm_num)]
    exact h1
  have htr : pyTrunc ((t - 0) / 120) = 0 := by
    unfold pyTrunc
    rw [if_pos hq0]
    exact Int.floor_eq_zero_iff.mpr ⟨hq0, hq1⟩
  unfold TokenBucket.refill
  simp only at htr ⊢
  rw [htr]
  simp

theorem runOps_fixed (ops : List BucketOp)
    (hc : ∀ t n, BucketOp.consume t n ∈ ops → 0 ≤ t ∧ t < 120 ∧ 0 < n)
    (hr : ∀ t, BucketOp.read t ∈ ops → 0 ≤ t ∧ t < 120) :
    runOps ⟨20, 0, 120, 0⟩ ops = ⟨20, 0, 120, 0⟩ := by
  induction ops with
  | nil => rfl
  | cons op rest ih =>
    have hstep : applyOp ⟨20, 0, 120, 0⟩ op = ⟨20, 0, 120, 0⟩ := by
      cases op with
      | consume t n =>
        have h := hc t n (by simp)
        have hfix := refill_fixed_of_lt t h.1 h.2.1
        have hn0 : ¬(n ≤ (0 : ℤ)) := by omega
        simp [applyOp, TokenBucket.try_consume, hfix, hn0]
      | read t =>
        have h := hr t (by simp)
        simp [applyOp, TokenBucket.get_tokens, refill_fixed_of_lt t h.1 h.2]
    have hcrest : ∀ t n, BucketOp.consume t n ∈ rest → 0 ≤ t ∧ t < 120 ∧ 0 < n := by
      intro t n h
      exact hc t n (by simp [h])
    have hrrest : ∀ t, BucketOp.read t ∈ rest → 0 ≤ t ∧ t < 120 := by
      intro t h
      exact hr t (by simp [h])
    rw [runOps, List.foldl_cons, hstep]
    exact ih hcrest hrrest

/-- C2 amended: the refill adds exactly `int(elapsed / refill_rate)` tokens
capped at capacity and advances `last_refill` only when at least one whole
token was added; with capacity 20 and refill rate 120s, after consuming all 20
tokens at time 0, `get_tokens()` at time 240 returns 2 — including when other
`get_tokens()`/`try_consume` calls occur in between, provided each such call
happens less than 120 seconds after the last refill and so adds no whole
token. (An intermediate call that does add a token resets `last_refill` to its
own call time and discards the sub-token remainder.) -/
theorem c2_refill_accuracy (ops : List BucketOp)
    (hc : ∀ t n, BucketOp.consume t n ∈ ops → 0 ≤ t ∧ t < 120 ∧ 0 < n)
    (hr : ∀ t, BucketOp.read t ∈ ops → 0 ≤ t ∧ t < 120) :
    ((TokenBucket.init 20 120 0).try_consume 0 20).fst = true ∧
    ((TokenBucket.init 20 120 0).try_consume 0 20).snd.tokens = 0 ∧
    ((runOps ((TokenBucket.init 20 120 0).try_consume 0 20).snd ops).get_tokens 240).fst
      = 2 ∧
    (∀ (b : TokenBucket) (now : ℚ),
      (0 < pyTrunc ((now - b.last_refill) / b.refill_rate) →
        b.refill now = { b with
          tokens := min b.capacity
            (b.tokens + pyTrunc ((now - b.last_refill) / b.refill_rate)),
          last_refill := now }) ∧
      (pyTrunc ((now - b.last_refill) / b.refill_rate) ≤ 0 → b.refill now = b)) := by
  have hsnd : ((TokenBucket.init 20 120 0).try_consume 0 20).snd
      = (⟨20, 0, 120, 0⟩ : TokenBucket) := by rw [tc_all_at_zero]
  refine ⟨by simp [tc_all_at_zero], by simp [tc_all_at_zero], ?_, ?_⟩
  · rw [hsnd, runOps_fixed ops hc hr]
    simp [gt_at_240_direct]
  · intro b now
    constructor
    · intro h
      unfold TokenBucket.refill
      rw [if_pos h]
    · intro h
      unfold TokenBucket.refill
      rw [if_neg (not_lt.mpr h)]

/-- Witness for C2 (amended) at a concrete operation list. -/
theorem c2_refill_accuracy_witness :
    ((runOps ((TokenBucket.init 20 120 0).try_consume 0 20).snd
      [BucketOp.read 60, BucketOp.consume 119 1]).get_tokens 240).fst = 2 := by
  have h := c2_refill_accuracy [BucketOp.read 60, BucketOp.consume 119 1]
    (by
      intro t n hm
      simp at hm
      refine ⟨by rw [hm.1]; norm_num, by rw [hm.1]; norm_num, by rw [hm.2]; norm_num⟩)
    (by
      intro t hm
      simp at hm
      refine ⟨by rw [hm]; norm_num, by rw [hm]; norm_num⟩)
  exact h.2.2.1

end RateLimiter

/-! ## Theorems: eviction -/

namespace Eviction

theorem evictOne_discovered (st : Coord) (pk : String) :
    (evictOne st pk).discovered = st.discovered.filter (fun kv => kv.fst ≠ pk) := by
  unfold evictOne
  split <;> rfl

theorem evictOne_trackedDiag (st : Coord) (pk : String) :
    (evictOne st pk).trackedDiag = st.trackedDiag.filter (fun s => s ≠ pk.take 12) := by
  unfold evictOne
  split <;> rfl

theorem evictOne_saves (st : Coord) (pk : String) : (evictOne st pk).saves = st.saves := by
  unfold evictOne
  split <;> rfl

theorem foldl_evictOne_discovered (keys : List String) (st : Coord) :
    (keys.foldl evictOne st).discovered
      = keys.foldl (fun d k => d.filter (fun kv => kv.fst ≠ k)) st.discovered := by
  induction keys generalizing st with
  | nil => rfl
  | cons k ks ih => simp [List.foldl_cons, ih, evictOne_discovered]

theorem foldl_evictOne_trackedDiag (keys : List String) (st : Coord) :
    (keys.foldl evictOne st).trackedDiag
      = keys.foldl (fun t k => t.filter (fun s => s ≠ k.take 12)) st.trackedDiag := by
  induction keys generalizing st with
  | nil => rfl
  | cons k ks ih => simp [List.foldl_cons, ih, evictOne_trackedDiag]

theorem foldl_evictOne_saves (keys : List String) (st : Coord) :
    (keys.foldl evictOne st).saves = st.saves := by
  induction keys generalizing st with
  | nil => rfl
  | cons k ks ih => simp [List.foldl_cons, ih, evictOne_saves]

theorem foldl_filter_take_drop (d : List (String × Nat)) (n : Nat)
    (hnd : (d.map Prod.fst).Nodup) :
    ((d.map Prod.fst).take n).foldl (fun d2 k => d2.filter (fun kv => kv.fst ≠ k)) d
      = d.drop n := by
  induction d generalizing n with
  | nil => cases n <;> rfl
  | cons p rest ih =>
    cases n with
    | zero => rfl
    | succ m =>
      have hnotin : p.fst ∉ rest.map Prod.fst := (List.nodup_cons.mp (by simpa using hnd)).1
      have hmem : ∀ kv ∈ rest, kv.fst ≠ p.fst := by
        intro kv hkv he
        exact hnotin (he ▸ List.mem_map_of_mem Prod.fst hkv)
      have h1 : (p :: rest).filter (fun kv => kv.fst ≠ p.fst) = rest := by
        rw [List.filter_cons, if_neg (by simp)]
        rw [List.filter_eq_self]
        intro kv hkv
        simpa using hmem kv hkv
      simp only [List.map_cons, List.take_succ_cons, List.foldl_cons, List.drop_succ_cons]
      rw [h1]
      exact ih m ((List.nodup_cons.mp (by simpa using hnd)).2)

theorem foldl_filter_mem (keys : List String) (tracked : List String) (s : String) :
    s ∈ keys.foldl (fun t k => t.filter (fun x => x ≠ k.take 12)) tracked
      ↔ s ∈ tracked ∧ ∀ k ∈ keys, s ≠ k.take 12 := by
  induction keys generalizing tracked with
  | nil => simp
  | cons k ks ih =>
    simp only [List.foldl_cons, ih, List.mem_filter, decide_eq_true_eq, List.mem_cons,
      ne_eq]
    constructor
    · rintro ⟨⟨h1, h2⟩, h3⟩
      refine ⟨h1, ?_⟩
      rintro x (rfl | hx)
      · simpa using h2
      · exact h3 x hx
    · rintro ⟨h1, h2⟩
      exact ⟨⟨h1, by simpa using h2 k (Or.inl rfl)⟩, fun x hx => h2 x (Or.inr hx)⟩

/-- C6: with `size > max_contacts` and distinct keys, eviction returns `True`,
removes exactly the `size - max_contacts` oldest entries leaving the remaining
entries in insertion order (`drop`), persists the resulting store through
exactly one `async_save`, and removes exactly the evicted keys' 12-character
prefixes from the tracked set. -/
theorem c6_eviction_removes_oldest (st : Coord) (max_contacts : Nat)
    (hnd : (st.discovered.map Prod.fst).Nodup)
    (hgt : max_contacts < st.discovered.length) :
    (async_evict_discovered_contacts st max_contacts).fst = true ∧
    (async_evict_discovered_contacts st max_contacts).snd.discovered
      = st.discovered.drop (st.discovered.length - max_contacts) ∧
    (async_evict_discovered_contacts st max_contacts).snd.saves
      = st.saves ++ [st.discovered.drop (st.discovered.length - max_contacts)] ∧
    (∀ s, s ∈ (async_evict_discovered_contacts st max_contacts).snd.trackedDiag ↔
      (s ∈ st.trackedDiag ∧
        ∀ k ∈ (st.discovered.map Prod.fst).take (st.discovered.length - max_contacts),
          s ≠ k.take 12)) := by
  have hnle : ¬ st.discovered.length ≤ max_contacts := not_le.mpr hgt
  simp only [async_evict_discovered_contacts, if_neg hnle]
  refine ⟨trivial, ?_, ?_, ?_⟩
  · rw [foldl_evictOne_discovered, foldl_filter_take_drop st.discovered _ hnd]
  · rw [foldl_evictOne_saves, foldl_evictOne_discovered,
      foldl_filter_take_drop st.discovered _ hnd]
  · intro s
    rw [foldl_evictOne_trackedDiag, foldl_filter_mem]

/-- Witness for C6: the A,B,C,D,E example with `max_contacts = 3` removes
exactly A and B, leaving insertion order C,D,E. -/
theorem c6_eviction_removes_oldest_witness :
    (async_evict_discovered_contacts
      ⟨[("A", 0), ("B", 1), ("C", 2), ("D", 3), ("E", 4)], ["A", "B"], [], [], [], 0⟩
      3).fst = true ∧
    (async_evict_discovered_contacts
      ⟨[("A", 0), ("B", 1), ("C", 2), ("D", 3), ("E", 4)], ["A", "B"], [], [], [], 0⟩
      3).snd.discovered = [("C", 2), ("D", 3), ("E", 4)] := by
  have h := c6_eviction_removes_oldest
    ⟨[("A", 0), ("B", 1), ("C", 2), ("D", 3), ("E", 4)], ["A", "B"], [], [], [], 0⟩ 3
    (by decide) (by decide)
  exact ⟨h.1, by rw [h.2.1]; rfl⟩

/-- C7: when the discovered store's size is at most `max_contacts`, eviction
returns `False` and the whole coordinator state — store, secondary indices,
and the storage-write log — is unchanged. -/
theorem c7_eviction_noop_under_cap (st : Coord) (max_contacts : Nat)
    (hle : st.discovered.length ≤ max_contacts) :
    async_evict_discovered_contacts st max_contacts = (false, st) := by
  unfold async_evict_discovered_contacts
  rw [if_pos hle]

/-- Witness for C7 at a concrete under-capacity store. -/
theorem c7_eviction_noop_witness :
    async_evict_discovered_contacts ⟨[("A", 0), ("B", 1)], ["A"], [], [], [], 0⟩ 3
      = (false, ⟨[("A", 0), ("B", 1)], ["A"], [], [], [], 0⟩) :=
  c7_eviction_noop_under_cap ⟨[("A", 0), ("B", 1)], ["A"], [], [], [], 0⟩ 3 (by decide)

theorem map_fst_filter_ne (d : List (String × Nat)) (pk : String) :
    (d.filter (fun kv => kv.fst ≠ pk)).map Prod.fst
      = (d.map Prod.fst).filter (fun k => k ≠ pk) := by
  induction d with
  | nil => rfl
  | cons p rest ih =>
    rw [List.filter_cons, List.map_cons, List.filter_cons]
    by_cases h : p.fst = pk
    · rw [if_neg (by simp [h]), if_neg (by simp [h])]
      exact ih
    · rw [if_pos (by simp [h]), if_pos (by simp [h])]
      rw [List.map_cons, ih]

/-- C8: re-inserting an already-present key moves it to the
most-recently-inserted position while keeping the other keys in relative
order (the key sequence becomes the old sequence with the key filtered out,
followed by the key), other entries are untouched; concretely, after
A,B,C,D,E re-inserting B yields order A,C,D,E,B, and evicting to
`max_contacts = 3` then removes exactly A and C. -/
theorem c8_readvertisement_refreshes_order :
    (∀ (d : List (String × Nat)) (pk : String) (v : Nat),
      (reinsertContact d pk v).map Prod.fst
        = (d.map Prod.fst).filter (fun k => k ≠ pk) ++ [pk] ∧
      ∀ q ∈ d, q.fst ≠ pk → q ∈ reinsertContact d pk v) ∧
    reinsertContact [("A", 0), ("B", 1), ("C", 2), ("D", 3), ("E", 4)] "B" 5
      = [("A", 0), ("C", 2), ("D", 3), ("E", 4), ("B", 5)] ∧
    (async_evict_discovered_contacts
      ⟨reinsertContact [("A", 0), ("B", 1), ("C", 2), ("D", 3), ("E", 4)] "B" 5,
        [], [], [], [], 0⟩ 3).snd.discovered = [("D", 3), ("E", 4), ("B", 5)] := by
  refine ⟨?_, by decide, by decide⟩
  intro d pk v
  constructor
  · unfold reinsertContact
    rw [List.map_append, map_fst_filter_ne]
    rfl
  · intro q hq hne
    unfold reinsertContact
    refine List.mem_append_left _ ?_
    rw [List.mem_filter]
    exact ⟨hq, by simpa using hne⟩

/-- Witness for C8's universally quantified part at a concrete store. -/
theorem c8_readvertisement_witness :
    (reinsertContact [("A", 0), ("B", 1)] "B" 9).map Prod.fst
      = ((([("A", 0), ("B", 1)] : List (String × Nat)).map Prod.fst).filter
          (fun k => k ≠ "B")) ++ ["B"] ∧
    ("A", 0) ∈ reinsertContact [("A", 0), ("B", 1)] "B" 9 := by
  have h := c8_readvertisement_refreshes_order.1 [("A", 0), ("B", 1)] "B" 9
  exact ⟨h.1, h.2 ("A", 0) (by decide) (by decide)⟩

end Eviction

/-! ## Theorems: contact registry merge -/

namespace Registry

theorem alookup_eq_none (d : List (String × Merged)) (pk : String) :
    alookup d pk = none ↔ pk ∉ d.map Prod.fst := by
  induction d with
  | nil => simp [alookup]
  | cons kv rest ih =>
    by_cases h : kv.fst = pk
    · simp [alookup, h]
    · simp [alookup, h, ih, Ne.symm h]

theorem mem_of_alookup_some {d : List (String × Merged)} {pk : String} {v : Merged}
    (h : alookup d pk = some v) : (pk, v) ∈ d := by
  induction d with
  | nil => simp [alookup] at h
  | cons kv rest ih =>
    by_cases hk : kv.fst = pk
    · rw [alookup, if_pos hk] at h
      injection h with h2
      subst h2
      subst hk
      simp
    · rw [alookup, if_neg hk] at h
      exact List.mem_cons_of_mem kv (ih h)

theorem mem_keys_of_alookup_some {d : List (String × Merged)} {pk : String} {v : Merged}
    (h : alookup d pk = some v) : pk ∈ d.map Prod.fst := by
  have := mem_of_alookup_some h
  exact List.mem_map_of_mem Prod.fst this

theorem keys_map_replace (d : List (String × Merged)) (pk : String) (cc : Merged) :
    (d.map (fun kv => if kv.fst = pk then (pk, cc) else kv)).map Prod.fst
      = d.map Prod.fst := by
  induction d with
  | nil => rfl
  | cons kv rest ih =>
    by_cases h : kv.fst = pk <;> simp [h, ih]

theorem mergeStep_none {apks : List String} {d : List (String × Merged)} {c : Contact}
    (h : truthyKey c = none) : mergeStep apks d c = d := by
  unfold mergeStep
  rw [h]

theorem mergeStep_some {apks : List String} {c : Contact} {pk : String}
    (d : List (String × Merged)) (h : truthyKey c = some pk) :
    mergeStep apks d c = insertMerge d pk (stamp apks pk c) := by
  unfold mergeStep
  rw [h]

theorem keys_insertMerge_mem {d : List (String × Merged)} {pk : String} (cc : Merged)
    (hmem : pk ∈ d.map Prod.fst) :
    (insertMerge d pk cc).map Prod.fst = d.map Prod.fst := by
  unfold insertMerge
  split
  · split
    · exact keys_map_replace d pk cc
    · rfl
  · rename_i heq
    exact absurd hmem ((alookup_eq_none d pk).mp heq)

theorem insertMerge_not_mem {d : List (String × Merged)} {pk : String} (cc : Merged)
    (hnm : pk ∉ d.map Prod.fst) :
    insertMerge d pk cc = d ++ [(pk, cc)] := by
  unfold insertMerge
  split
  · rename_i e heq
    exact absurd (mem_keys_of_alookup_some heq) hnm
  · rfl

theorem keys_mergeStep_mem {apks : List String} {d : List (String × Merged)} {c : Contact}
    {pk : String} (h : truthyKey c = some pk) (hmem : pk ∈ d.map Prod.fst) :
    (mergeStep apks d c).map Prod.fst = d.map Prod.fst := by
  rw [mergeStep_some d h]
  exact keys_insertMerge_mem (stamp apks pk c) hmem

theorem mergeStep_not_mem {apks : List String} {d : List (String × Merged)} {c : Contact}
    {pk : String} (h : truthyKey c = some pk) (hnm : pk ∉ d.map Prod.fst) :
    mergeStep apks d c = d ++ [(pk, stamp apks pk c)] := by
  rw [mergeStep_some d h]
  exact insertMerge_not_mem (stamp apks pk c) hnm

theorem nodup_keys_fold (apks : List String) (cs : List Contact)
    (d : List (String × Merged)) (hnd : (d.map Prod.fst).Nodup) :
    ((cs.foldl (mergeStep apks) d).map Prod.fst).Nodup := by
  induction cs generalizing d with
  | nil => exact hnd
  | cons c cs ih =>
    rw [List.foldl_cons]
    refine ih (mergeStep apks d c) ?_
    cases htc : truthyKey c with
    | none => rw [mergeStep_none htc]; exact hnd
    | some pk =>
      by_cases hmem : pk ∈ d.map Prod.fst
      · rw [keys_mergeStep_mem htc hmem]; exact hnd
      · rw [mergeStep_not_mem htc hmem]
        simp only [List.map_append, List.map_cons, List.map_nil]
        rw [List.nodup_append]
        exact ⟨hnd, List.nodup_singleton pk, by
          intro a ha hb
          simp at hb
          subst hb
          exact hmem ha⟩

theorem mem_keys_fold (apks : List String) (cs : List Contact)
    (d : List (String × Merged)) (pk : String) :
    pk ∈ (cs.foldl (mergeStep apks) d).map Prod.fst
      ↔ pk ∈ d.map Prod.fst ∨ pk ∈ cs.filterMap truthyKey := by
  induction cs generalizing d with
  | nil => simp
  | cons c cs ih =>
    rw [List.foldl_cons, ih]
    cases htc : truthyKey c with
    | none =>
      rw [mergeStep_none htc]
      simp [List.filterMap_cons, htc]
    | some q =>
      by_cases hq : q ∈ d.map Prod.fst
      · rw [keys_mergeStep_mem htc hq]
        simp only [List.filterMap_cons, htc, List.mem_cons]
        constructor
        · rintro (h | h)
          · exact Or.inl h
          · exact Or.inr (Or.inr h)
        · rintro (h | rfl | h)
          · exact Or.inl h
          · exact Or.inl hq
          · exact Or.inr h
      · rw [mergeStep_not_mem htc hq]
        simp only [List.filterMap_cons, htc, List.mem_cons, List.map_append,
          List.map_cons, List.map_nil, List.mem_append, List.mem_singleton]
        tauto

theorem good_insertMerge {apks : List String} {d : List (String × Merged)} {pk : String}
    {cc : Merged} (h : ∀ kv ∈ d, GoodEntry apks kv) (hcc : GoodEntry apks (pk, cc)) :
    ∀ kv ∈ insertMerge d pk cc, GoodEntry apks kv := by
  intro kv hkv
  unfold insertMerge at hkv
  split at hkv
  · split at hkv
    · rcases List.mem_map.mp hkv with ⟨kv0, hkv0, heq⟩
      by_cases h0 : kv0.fst = pk
      · rw [if_pos h0] at heq
        rw [← heq]
        exact hcc
      · rw [if_neg h0] at heq
        rw [← heq]
        exact h kv0 hkv0
    · exact h kv hkv
  · simp only [List.mem_append, List.mem_singleton] at hkv
    rcases hkv with hkv | rfl
    · exact h kv hkv
    · exact hcc

theorem good_mergeStep {apks : List String} {d : List (String × Merged)} {c : Contact}
    (h : ∀ kv ∈ d, GoodEntry apks kv) : ∀ kv ∈ mergeStep apks d c, GoodEntry apks kv := by
  cases htc : truthyKey c with
  | none =>
    rw [mergeStep_none htc]
    exact h
  | some pk =>
    rw [mergeStep_some d htc]
    exact good_insertMerge h (by simp [GoodEntry, stamp])

theorem good_fold (apks : List String) (cs : List Contact) (d : List (String × Merged))
    (h : ∀ kv ∈ d, GoodEntry apks kv) :
    ∀ kv ∈ cs.foldl (mergeStep apks) d, GoodEntry apks kv := by
  induction cs generalizing d with
  | nil => exact h
  | cons c cs ih =>
    rw [List.foldl_cons]
    exact ih (mergeStep apks d c) (good_mergeStep h)

theorem alookup_append_single (d : List (String × Merged)) (pk q : String) (cc : Merged) :
    alookup (d ++ [(q, cc)]) pk
      = match alookup d pk with
        | some v => some v
        | none => if q = pk then some cc else none := by
  induction d with
  | nil => simp [alookup]
  | cons kv rest ih =>
    by_cases h : kv.fst = pk
    · simp [alookup, h]
    · simp only [List.cons_append, alookup, if_neg h]
      exact ih

theorem alookup_map_replace (d : List (String × Merged)) (pk q : String) (cc : Merged) :
    alookup (d.map (fun kv => if kv.fst = q then (q, cc) else kv)) pk
      = if q = pk then (alookup d q).map (fun _ => cc) else alookup d pk := by
  induction d with
  | nil => by_cases h : q = pk <;> simp [alookup, h]
  | cons kv rest ih =>
    by_cases h1 : kv.fst = q
    · by_cases h2 : q = pk
      · subst h2
        simp [alookup, h1]
      · have hkp : ¬ kv.fst = pk := by rw [h1]; exact h2
        simp only [List.map_cons, if_pos h1, alookup, if_neg h2, if_neg hkp]
        rw [ih, if_neg h2]
    · by_cases h2 : kv.fst = pk
      · have hqp : ¬ q = pk := by
          intro he
          exact h1 (by rw [h2, he])
        simp only [List.map_cons, if_neg h1, alookup, if_pos h2]
        rw [if_neg hqp]
      · simp only [List.map_cons, if_neg h1, alookup, if_neg h2]
        exact ih

theorem alookup_insertMerge_self (d : List (String × Merged)) (pk : String) (cc : Merged) :
    alookup (insertMerge d pk cc) pk = combineMerge (alookup d pk) cc := by
  unfold insertMerge
  split
  · rename_i e heq
    split
    · rename_i hgt
      rw [alookup_map_replace, if_pos rfl, heq]
      simp [combineMerge, heq, if_pos hgt]
    · rename_i hgt
      rw [heq]
      simp [combineMerge, if_neg hgt]
  · rename_i heq
    rw [alookup_append_single, heq, if_pos rfl]
    rfl

theorem alookup_insertMerge_other (d : List (String × Merged)) {pk pk2 : String}
    (cc : Merged) (hne : pk ≠ pk2) :
    alookup (insertMerge d pk cc) pk2 = alookup d pk2 := by
  unfold insertMerge
  split
  · split
    · rw [alookup_map_replace, if_neg hne]
    · rfl
  · rw [alookup_append_single]
    cases hp : alookup d pk2 with
    | none => simp [hne]
    | some v => simp

theorem alookup_mergeStep (apks : List String) (d : List (String × Merged)) (c : Contact)
    (pk : String) :
    alookup (mergeStep apks d c) pk
      = if truthyKey c = some pk then combineMerge (alookup d pk) (stamp apks pk c)
        else alookup d pk := by
  cases htc : truthyKey c with
  | none =>
    rw [mergeStep_none htc, if_neg (by simp)]
  | some q =>
    rw [mergeStep_some d htc]
    by_cases hqp : q = pk
    · subst hqp
      rw [if_pos rfl]
      exact alookup_insertMerge_self d q (stamp apks q c)
    · rw [if_neg (by simp [hqp])]
      exact alookup_insertMerge_other d (stamp apks q c) hqp

theorem alookup_fold (apks : List String) (cs : List Contact) (d : List (String × Merged))
    (pk : String) :
    alookup (cs.foldl (mergeStep apks) d) pk
      = (cs.filterMap (fun c =>
          if truthyKey c = some pk then some (stamp apks pk c) else none)).foldl
          combineMerge (alookup d pk) := by
  induction cs generalizing d with
  | nil => rfl
  | cons c cs ih =>
    rw [List.foldl_cons, ih, alookup_mergeStep]
    by_cases htc : truthyKey c = some pk
    · rw [if_pos htc]
      simp [List.filterMap_cons, htc]
    · rw [if_neg htc]
      simp [List.filterMap_cons, htc]

theorem filterMap_if_eq_map_filter (l : List Contact) (p : String)
    (f : Contact → Merged) :
    l.filterMap (fun c => if truthyKey c = some p then some (f c) else none)
      = (l.filter (fun c => truthyKey c = some p)).map f := by
  induction l with
  | nil => rfl
  | cons c cs ih =>
    by_cases h : truthyKey c = some p
    · simp [List.filterMap_cons, List.filter_cons, h, ih]
    · simp [List.filterMap_cons, List.filter_cons, h, ih]

theorem map_public_key_output (discovered added : List Contact) :
    (get_all_contacts discovered added).map Merged.public_key
      = ((discovered ++ added).foldl (mergeStep (addedPubkeys added)) []).map Prod.fst := by
  unfold get_all_contacts
  rw [List.map_map]
  apply List.map_congr_left
  intro kv hkv
  exact (good_fold (addedPubkeys added) (discovered ++ added) [] (by simp) kv hkv).1

/-- C1: `get_all_contacts` returns exactly one record per distinct (truthy)
`public_key` in the union of the discovered and added contact lists; every
returned record carries `pubkey_prefix` equal to the first 12 characters of
its `public_key` and `added_to_node` true iff its key occurs in the added
list; and when each source holds exactly one record for a shared key with
different `lastmod` values, the returned record carries the fields of the
record with the larger `lastmod`, with `added_to_node = true` regardless of
which provenance won. -/
theorem c1_get_all_contacts_merge (discovered added : List Contact) :
    ((get_all_contacts discovered added).map Merged.public_key).Nodup ∧
    (∀ p : String,
      p ∈ (get_all_contacts discovered added).map Merged.public_key ↔
        p ∈ (discovered ++ added).filterMap truthyKey) ∧
    (∀ r ∈ get_all_contacts discovered added,
      r.prefix12 = r.public_key.take 12 ∧
      (r.added_to_node = true ↔ r.public_key ∈ addedPubkeys added)) ∧
    (∀ (p : String) (cd ca : Contact) (ld la : Int),
      discovered.filter (fun c => truthyKey c = some p) = [cd] →
      added.filter (fun c => truthyKey c = some p) = [ca] →
      cd.lastmod = some ld → ca.lastmod = some la → ld ≠ la →
      ∃ r ∈ get_all_contacts discovered added,
        r.public_key = p ∧ r.added_to_node = true ∧
        r.lastmod = (if ld < la then ca else cd).lastmod ∧
        r.payload = (if ld < la then ca else cd).payload) := by
  refine ⟨?_, ?_, ?_, ?_⟩
  · rw [map_public_key_output]
    exact nodup_keys_fold (addedPubkeys added) (discovered ++ added) [] (by simp)
  · intro p
    rw [map_public_key_output, mem_keys_fold]
    simp
  · intro r hr
    unfold get_all_contacts at hr
    rcases List.mem_map.mp hr with ⟨kv, hkv, heq⟩
    have hg := good_fold (addedPubkeys added) (discovered ++ added) [] (by simp) kv hkv
    subst heq
    refine ⟨by rw [hg.2.1, hg.1], ?_⟩
    rw [hg.2.2, hg.1]
    simp
  · intro p cd ca ld la hfd hfa hld hla hne
    have hca_mem : ca ∈ added := by
      have : ca ∈ added.filter (fun c => truthyKey c = some p) := by
        rw [hfa]; exact List.mem_singleton_self ca
      exact List.mem_of_mem_filter this
    have hca_key : truthyKey ca = some p := by
      have : ca ∈ added.filter (fun c => truthyKey c = some p) := by
        rw [hfa]; exact List.mem_singleton_self ca
      simpa using (List.of_mem_filter this)
    have hp_apks : p ∈ addedPubkeys added :=
      List.mem_filterMap.mpr ⟨ca, hca_mem, hca_key⟩
    have hfil : (discovered ++ added).filter (fun c => truthyKey c = some p)
        = [cd, ca] := by
      rw [List.filter_append, hfd, hfa]
      rfl
    have hcomb : alookup ((discovered ++ added).foldl
        (mergeStep (addedPubkeys added)) []) p
        = some (if ld < la then stamp (addedPubkeys added) p ca
            else stamp (addedPubkeys added) p cd) := by
      rw [alookup_fold, filterMap_if_eq_map_filter, hfil]
      show combineMerge (combineMerge (alookup [] p) (stamp (addedPubkeys added) p cd))
        (stamp (addedPubkeys added) p ca) = _
      have h1 : combineMerge (alookup [] p) (stamp (addedPubkeys added) p cd)
          = some (stamp (addedPubkeys added) p cd) := rfl
      rw [h1]
      have h2 : lastmodD (stamp (addedPubkeys added) p ca).lastmod = la := by
        simp [stamp, hla, lastmodD]
      have h3 : lastmodD (stamp (addedPubkeys added) p cd).lastmod = ld := by
        simp [stamp, hld, lastmodD]
      show some (if lastmodD (stamp (addedPubkeys added) p ca).lastmod >
          lastmodD (stamp (addedPubkeys added) p cd).lastmod
          then stamp (addedPubkeys added) p ca else stamp (addedPubkeys added) p cd) = _
      rw [h2, h3]
    refine ⟨if ld < la then stamp (addedPubkeys added) p ca
      else stamp (addedPubkeys added) p cd, ?_, ?_, ?_, ?_, ?_⟩
    · unfold get_all_contacts
      exact List.mem_map_of_mem Prod.snd (mem_of_alookup_some hcomb)
    · by_cases hlt : ld < la <;> simp [hlt, stamp]
    · by_cases hlt : ld < la <;> simp [hlt, stamp, hp_apks]
    · by_cases hlt : ld < la <;> simp [hlt, stamp]
    · by_cases hlt : ld < la <;> simp [hlt, stamp]

/-- Witness for C1 at concrete contact lists: one discovered and one added
record share a key, the added one is fresher, and the merged view keeps the
added record's fields. -/
theorem c1_get_all_contacts_witness :
    ∃ r ∈ get_all_contacts
      [⟨some "aabbccddeeff00112233", some 5, 100⟩]
      [⟨some "aabbccddeeff00112233", some 9, 200⟩],
      r.public_key = "aabbccddeeff00112233" ∧ r.added_to_node = true ∧
      r.lastmod = (if (5 : ℤ) < 9 then (⟨some "aabbccddeeff00112233", some 9, 200⟩ : Contact)
          else ⟨some "aabbccddeeff00112233", some 5, 100⟩).lastmod ∧
      r.payload = (if (5 : ℤ) < 9 then (⟨some "aabbccddeeff00112233", some 9, 200⟩ : Contact)
          else ⟨some "aabbccddeeff00112233", some 5, 100⟩).payload := by
  exact (c1_get_all_contacts_merge
    [⟨some "aabbccddeeff00112233", some 5, 100⟩]
    [⟨some "aabbccddeeff00112233", some 9, 200⟩]).2.2.2
    "aabbccddeeff00112233"
    ⟨some "aabbccddeeff00112233", some 5, 100⟩
    ⟨some "aabbccddeeff00112233", some 9, 200⟩
    5 9 (by decide) (by decide) rfl rfl (by decide)

end Registry

/-! ## Theorems: per-repeater scheduling -/

namespace Sched

theorem getKey_eq_none (l : List (String × Nat)) (k : String) :
    Backoff.getKey l k = none ↔ k ∉ l.map Prod.fst := by
  induction l with
  | nil => simp [Backoff.getKey]
  | cons p rest ih =>
    by_cases h : p.fst = k
    · simp [Backoff.getKey, h]
    · simp [Backoff.getKey, h, ih, Ne.symm h]

theorem mem_of_getKey_some {l : List (String × Nat)} {k : String} {v : Nat}
    (h : Backoff.getKey l k = some v) : (k, v) ∈ l := by
  induction l with
  | nil => simp [Backoff.getKey] at h
  | cons p rest ih =>
    by_cases hk : p.fst = k
    · rw [Backoff.getKey, if_pos hk] at h
      injection h with h2
      subst h2
      subst hk
      simp
    · rw [Backoff.getKey, if_neg hk] at h
      exact List.mem_cons_of_mem p (ih h)

theorem keyed_unique : ∀ {l : List (String × Nat)}, (l.map Prod.fst).Nodup →
    ∀ {k : String} {a b : Nat}, (k, a) ∈ l → (k, b) ∈ l → a = b := by
  intro l
  induction l with
  | nil =>
    intro _ k a b ha _
    simp at ha
  | cons p rest ih =>
    intro hnd k a b ha hb
    have hnd' : (p.fst :: rest.map Prod.fst).Nodup := by
      rw [List.map_cons] at hnd
      exact hnd
    have hnd2 := List.nodup_cons.mp hnd'
    rcases List.mem_cons.mp ha with h1 | h1
    · rcases List.mem_cons.mp hb with h2 | h2
      · exact congrArg Prod.snd (h1.trans h2.symm)
      · exfalso
        have hmem : k ∈ rest.map Prod.fst := List.mem_map_of_mem Prod.fst h2
        have hpfst : p.fst = k := by rw [← h1]
        exact hnd2.1 (hpfst ▸ hmem)
    · rcases List.mem_cons.mp hb with h2 | h2
      · exfalso
        have hmem : k ∈ rest.map Prod.fst := List.mem_map_of_mem Prod.fst h1
        have hpfst : p.fst = k := by rw [← h2]
        exact hnd2.1 (hpfst ▸ hmem)
      · exact ih hnd2.2 h1 h2

theorem filter_ne_key_not_mem (l : List (String × Nat)) (k : String) :
    k ∉ (l.filter (fun p => p.fst ≠ k)).map Prod.fst := by
  intro h
  rcases List.mem_map.mp h with ⟨p, hp, hfst⟩
  have hpred := List.of_mem_filter hp
  simp at hpred
  exact hpred hfst

theorem inv_tickSpawn {st : SchedState} (now : Nat) (pk : String) (h : Inv st)
    (habs : pk ∉ st.active.map Prod.fst) : Inv (tickSpawn now st pk) := by
  unfold tickSpawn
  split
  · obtain ⟨h1, h2, h3, h4⟩ := h
    refine ⟨?_, ?_, ?_, ?_⟩
    · intro p hp
      simp only [List.mem_append, List.mem_singleton] at hp
      rcases hp with hp | rfl
      · exact Nat.lt_succ_of_lt (h1 p hp)
      · exact Nat.lt_succ_self _
    · simp only [List.map_append, List.map_cons, List.map_nil]
      rw [List.nodup_append]
      refine ⟨h2, List.nodup_singleton _, ?_⟩
      intro a haa hbb
      simp at hbb
      subst hbb
      exact habs haa
    · intro p hp
      simp only [List.mem_append, List.mem_singleton] at hp
      rcases hp with hp | rfl
      · exact List.mem_append_left _ (h3 p hp)
      · exact List.mem_append_right _ (List.mem_singleton_self _)
    · intro p hp hdone
      simp only [List.mem_append, List.mem_singleton] at hp
      rcases hp with hp | rfl
      · exact List.mem_append_left _ (h4 p hp hdone)
      · exact List.mem_append_right _ (List.mem_singleton_self _)
  · exact h

theorem inv_tickNode (now : Nat) {st : SchedState} (r : String × Bool) (h : Inv st) :
    Inv (tickNode now st r) := by
  unfold tickNode
  split
  · exact h
  · split
    · rename_i tid hk
      split
      · rename_i hdone
        obtain ⟨h1, h2, h3, h4⟩ := h
        have hmem_tid : (r.fst, tid) ∈ st.active := mem_of_getKey_some hk
        refine inv_tickSpawn now r.fst ⟨?_, ?_, ?_, ?_⟩ ?_
        · exact h1
        · exact List.Nodup.sublist
            (List.Sublist.map Prod.fst (List.filter_sublist st.active)) h2
        · intro p hp
          exact h3 p (List.mem_of_mem_filter hp)
        · intro p hp hnd
          refine List.mem_filter.mpr ⟨h4 p hp hnd, ?_⟩
          simp only [ne_eq, decide_eq_true_eq]
          intro hfst
          have hp2 : (r.fst, p.snd) ∈ st.active := by
            have := h4 p hp hnd
            rw [← hfst]
            simpa using this
          have := keyed_unique h2 hp2 hmem_tid
          rw [this] at hnd
          exact hnd hdone
        · exact filter_ne_key_not_mem st.active r.fst
      · exact h
    · rename_i hk
      exact inv_tickSpawn now r.fst h ((getKey_eq_none st.active r.fst).mp hk)

theorem inv_tick (now : Nat) (reps : List (String × Bool)) {st : SchedState}
    (h : Inv st) : Inv (tick now reps st) := by
  unfold tick
  induction reps generalizing st with
  | nil => exact h
  | cons r rs ih =>
    rw [List.foldl_cons]
    exact ih (inv_tickNode now r h)

theorem inv_applyStep {st : SchedState} (s : Step) (h : Inv st) : Inv (applyStep st s) := by
  cases s with
  | tick now reps => exact inv_tick now reps h
  | complete ids sched =>
    obtain ⟨h1, h2, h3, h4⟩ := h
    refine ⟨h1, ?_, ?_, ?_⟩
    · exact List.Nodup.sublist
        (List.Sublist.map Prod.fst (List.filter_sublist st.active)) h2
    · intro p hp
      exact h3 p (List.mem_of_mem_filter hp)
    · intro p hp hnd
      have hnd' : p.snd ∉ st.doneIds ++ ids.filter (fun i => i < st.fresh) := hnd
      have hold : p.snd ∉ st.doneIds := by
        intro hmem
        exact hnd' (List.mem_append_left _ hmem)
      refine List.mem_filter.mpr ⟨h4 p hp hold, ?_⟩
      exact decide_eq_true hnd'

theorem inv_run (steps : List Step) : Inv (run steps) := by
  have hgen : ∀ (ss : List Step) (st : SchedState), Inv st → Inv (ss.foldl applyStep st) := by
    intro ss
    induction ss with
    | nil => intro st h; exact h
    | cons s rest ih =>
      intro st h
      rw [List.foldl_cons]
      exact ih (applyStep st s) (inv_applyStep s h)
  refine hgen steps initState ⟨?_, ?_, ?_, ?_⟩ <;> simp [initState]

/-- C4: across an arbitrary interleaving of scheduler ticks and task
completions, at most one spawned-but-unresolved run exists per
`pubkey_prefix` at every point — a second run is never spawned while an
earlier run's task handle is not yet done. -/
theorem c4_at_most_one_in_flight (steps : List Step) (pk : String) (t1 t2 : Nat)
    (h1 : (pk, t1) ∈ (run steps).log) (h2 : (pk, t2) ∈ (run steps).log)
    (hu1 : t1 ∉ (run steps).doneIds) (hu2 : t2 ∉ (run steps).doneIds) :
    t1 = t2 := by
  obtain ⟨_, hnd, _, hact⟩ := inv_run steps
  exact keyed_unique hnd (hact (pk, t1) h1 hu1) (hact (pk, t2) h2 hu2)

/-- Witness for C4: two consecutive ticks on one node spawn only one run
while the first is unresolved. -/
theorem c4_at_most_one_witness :
    ("aa", 0) ∈ (run [Step.tick 0 [("aa", true)], Step.tick 5 [("aa", true)]]).log ∧
    (0 : Nat) ∉ (run [Step.tick 0 [("aa", true)], Step.tick 5 [("aa", true)]]).doneIds ∧
    (run [Step.tick 0 [("aa", true)], Step.tick 5 [("aa", true)]]).log = [("aa", 0)] ∧
    0 = 0 :=
  ⟨by decide, by decide, by decide,
    c4_at_most_one_in_flight [Step.tick 0 [("aa", true)], Step.tick 5 [("aa", true)]]
      "aa" 0 0 (by decide) (by decide) (by decide) (by decide)⟩

end Sched

/-! ## Theorems: repeater login phase -/

namespace Login

/-- C5 counterexample: with `consecutive_failures = 5`, no prior login, the
cooldown elapsed and a rate-limiter token available, a failed login leaves
`consecutive_failures` at 5 — the code resets the count only on success,
while the claim asserts a reset regardless of outcome. The login timestamp
is recorded either way. -/
theorem c5_login_counterexample :
    (loginPhase ⟨5, 0, 0, 0, 0⟩ 3600 true LoginOutcome.failure 7200).loginSent = true ∧
    (loginPhase ⟨5, 0, 0, 0, 0⟩ 3600 true LoginOutcome.failure 7200).st.lastLoginTime = 3600 ∧
    (loginPhase ⟨5, 0, 0, 0, 0⟩ 3600 true LoginOutcome.failure 7200).st.failures = 5 ∧
    ¬ (loginPhase ⟨5, 0, 0, 0, 0⟩ 3600 true LoginOutcome.failure 7200).st.failures = 0 := by
  decide

/-- C5 amended: whenever `consecutive_failures ≥ 5`, at least 3600 seconds
have elapsed since the last login attempt, and a rate-limiter token is
available, the run sends the login command and records the login timestamp
whether the login succeeds, fails, or raises; `consecutive_failures` is
reset to 0 exactly when the login succeeds, and is left unchanged
otherwise. -/
theorem c5_login_reset_only_on_success (st : RepState) (now : Nat)
    (outcome : LoginOutcome) (iv : Nat)
    (hf : MAX_REPEATER_FAILURES_BEFORE_LOGIN ≤ st.failures)
    (hcd : login_cooldown ≤ (now : Int) - (st.lastLoginTime : Int)) :
    (loginPhase st now true outcome iv).loginSent = true ∧
    (loginPhase st now true outcome iv).st.lastLoginTime = now ∧
    ((loginPhase st now true outcome iv).st.failures = 0 ↔ outcome = .success) ∧
    (outcome ≠ .success →
      (loginPhase st now true outcome iv).st.failures = st.failures) := by
  have hf5 : 5 ≤ st.failures := hf
  unfold loginPhase
  rw [if_pos ⟨hf, hcd⟩]
  cases outcome with
  | success => simp
  | failure =>
    simp
    omega
  | exc =>
    simp
    omega

/-- Witness for C5 (amended) at a concrete state and outcome. -/
theorem c5_login_witness :
    (loginPhase ⟨6, 100, 0, 0, 0⟩ 3800 true LoginOutcome.exc 7200).loginSent = true ∧
    (loginPhase ⟨6, 100, 0, 0, 0⟩ 3800 true LoginOutcome.exc 7200).st.lastLoginTime = 3800 ∧
    (loginPhase ⟨6, 100, 0, 0, 0⟩ 3800 true LoginOutcome.exc 7200).st.failures = 6 := by
  have h := c5_login_reset_only_on_success ⟨6, 100, 0, 0, 0⟩ 3800 LoginOutcome.exc 7200
    (by decide) (by decide)
  exact ⟨h.1, h.2.1, by rw [h.2.2.2 (by decide)]⟩

end Login

/-! ## Theorems: functional command parser -/

namespace Services

theorem mapOpt_literal_eval_none {args : List PyExpr}
    (h : ∃ a ∈ args, literal_eval a = none) : mapOpt literal_eval args = none := by
  induction args with
  | nil =>
    rcases h with ⟨a, ha, _⟩
    exact absurd ha (List.not_mem_nil a)
  | cons b bs ih =>
    rcases h with ⟨a, ha, hfail⟩
    rcases List.mem_cons.mp ha with rfl | ha2
    · simp [mapOpt, hfail]
    · have h2 := ih ⟨a, ha2, hfail⟩
      cases hb : literal_eval b <;> simp [mapOpt, hb, h2]

/-- C9: the functional command parser accepts only call syntax whose
arguments are Python literals: `reboot()` and `send_advert(True)` parse to
their literal argument lists, while `cmd(1+2)` and
`cmd(__import__('os').system('x'))` return `None`; in general, whenever the
regex accepts a command and its body parses to an argument list containing
any non-literal expression, the parser returns `None` — arguments pass only
through `ast.literal_eval`, so the offending expression is never
evaluated. -/
theorem c9_functional_command_injection_safe :
    parseFunctionalCommand "reboot()" = some ("reboot", [], []) ∧
    parseFunctionalCommand "send_advert(True)" = some ("send_advert", [PyVal.bool true], []) ∧
    parseFunctionalCommand "cmd(1+2)" = none ∧
    parseFunctionalCommand "cmd(__import__('os').system('x'))" = none ∧
    (∀ (s cmd_name body : String) (args : List PyExpr)
        (kwargs : List (String × PyExpr)),
      regexSplit s = some (cmd_name, body) →
      parseArgsStr body = some (args, kwargs) →
      (∃ a ∈ args, literal_eval a = none) →
      parseFunctionalCommand s = none) := by
  refine ⟨rfl, rfl, rfl, rfl, ?_⟩
  intro s cmd_name body args kwargs hsplit hargs hfail
  unfold parseFunctionalCommand
  rw [hsplit, Option.some_bind]
  unfold withBody
  by_cases hb : body = ""
  · subst hb
    have hempty : parseArgsStr "" = some ([], []) := rfl
    rw [hempty] at hargs
    injection hargs with hpair
    rw [Prod.mk.injEq] at hpair
    rcases hfail with ⟨a, ha, _⟩
    rw [← hpair.1] at ha
    exact absurd ha (List.not_mem_nil a)
  · rw [if_neg hb, hargs, Option.some_bind]
    rw [mapOpt_literal_eval_none hfail]

/-- Witness for C9's universally quantified part: `cmd(foo)` parses to a
single non-literal argument and the parser returns `None`. -/
theorem c9_functional_command_witness :
    parseFunctionalCommand "cmd(foo)" = none :=
  c9_functional_command_injection_safe.2.2.2.2 "cmd(foo)" "cmd" "foo"
    [PyExpr.name "foo"] [] rfl rfl
    ⟨PyExpr.name "foo", List.mem_singleton_self _, rfl⟩

end Services

end MeshcoreHA
